import Mathlib

/-!
# Verification of the trento nucleus sampling subsystem

Shallow embedding of `src/nucleus.h` (classes `Nucleus`, `Proton`,
`WoodsSaxonNucleus`).  Only the header is present in the repository; the
implementation file `nucleus.cc` and the `Nucleon` entity header are not,
so the bodies of the operations are modelled from the spec (each such
definition says so in its doc comment).  The model is generic over a
`LinearOrderedField K` standing for the `double` scalar type, so that all
operational definitions are executable at `K = ℚ`; the genuinely real
Woods-Saxon density is instantiated at `K = ℝ` where a claim needs it.
-/

namespace Trento

/-- A nucleon: a mutable transverse position record `(x, y)`
(entity of `nucleon.h`, declared as the element type of
`Nucleus::nucleons_`). -/
structure Nucleon (K : Type) where
  x : K
  y : K
deriving DecidableEq

/-- Modelled from the spec: the shared pseudorandom engine is "a shared,
mutable, ordered stream of randomness"; we model it as a deterministic
stream of uniform variates (the seed determines `stream`) together with
the number of variates consumed so far. -/
structure Engine (K : Type) where
  stream : ℕ → K
  pos : ℕ

variable {K : Type} [LinearOrderedField K]

/-- Truncation policy for `WoodsSaxonNucleus::radius()`.  Modelled from the
spec: `nucleus.cc` is not in the repository; the spec says the reported
radius is "a fixed multiple of R and a" below the true support, and the
header says it "will actually be somewhat smaller than the true maximum
radius".  Policy constant: `R + 3a`. -/
def wsRadius (R a : K) : K := R + 3 * a

/-- Upper end of the radial domain covered by the piecewise-linear table.
Modelled from the spec: "from 0 out to several diffuseness-lengths beyond
R, enough that residual density is numerically negligible".  Policy
constant: `R + 10a`. -/
def wsRMax (R a : K) : K := R + 10 * a

/-- Breakpoints of the radial partition: `n + 1` equally spaced points from
`0` to `rmax` (the "fixed, sufficiently fine partition of the relevant
radial domain" of the spec). -/
def breakpoints (rmax : K) (n : ℕ) : List K :=
  (List.range (n + 1)).map (fun k : ℕ => rmax * (k : K) / (n : K))

/-- Trapezoidal areas of the density `f` between consecutive partition
points: the increments of the piecewise-linear approximation to the CDF. -/
def trapAreas (f : K → K) : List K → List K
  | x :: y :: rest => (f x + f y) * (y - x) / 2 :: trapAreas f (y :: rest)
  | _ => []

/-- Total area of the tabulated density: the normalization constant of the
piecewise-linear CDF approximation. -/
def plTotal (f : K → K) (pts : List K) : K := (trapAreas f pts).sum

/-- The inverse-CDF table: pairs `(cumulative area, breakpoint)`, built by
one pass over the partition with running cumulative area `c`.  Modelled
from the spec: the sampler "builds, once per object (at construction), a
piecewise-linear approximation to the CDF over a fixed ... partition". -/
def plTable (f : K → K) : List K → K → List (K × K)
  | [], _ => []
  | [x], c => [(c, x)]
  | x :: y :: rest, c =>
      (c, x) :: plTable f (y :: rest) (c + (f x + f y) * (y - x) / 2)

/-- Linear interpolation through the inverse-CDF table: find the segment
whose cumulative range contains `u` and interpolate the breakpoints
linearly ("draws a uniform variate and linearly interpolates through this
table"). -/
def pl_inverse : List (K × K) → K → K
  | [], _ => 0
  | [(_, b)], _ => b
  | (c₁, b₁) :: (c₂, b₂) :: rest, u =>
      if u ≤ c₂ then b₁ + (u - c₁) / (c₂ - c₁) * (b₂ - b₁)
      else pl_inverse ((c₂, b₂) :: rest) u

/-- The full table of the `woods_saxon_dist_` member for density `f`,
domain end `rmax` and resolution `n`. -/
def wsTable (f : K → K) (rmax : K) (n : ℕ) : List (K × K) :=
  plTable f (breakpoints rmax n) 0

/-- One draw from the piecewise-linear distribution: a uniform variate
`u ∈ [0,1]` is scaled to the total tabulated area and pushed through the
interpolated inverse CDF. -/
def wsInv (f : K → K) (rmax : K) (n : ℕ) (u : K) : K :=
  pl_inverse (wsTable f rmax n) (u * plTotal f (breakpoints rmax n))

/-- Variant-specific state of a nucleus: the `Proton` subclass has no extra
state; the `WoodsSaxonNucleus` subclass holds the parameters `R_`, `a_`
and the `woods_saxon_dist_` member (its total area and its table). -/
inductive NucleusKind (K : Type) where
  | proton : NucleusKind K
  | woodsSaxon (R a total : K) (tbl : List (K × K)) : NucleusKind K
deriving DecidableEq

/-- A nucleus: the variant state together with the base-class member
`nucleons_` (`std::vector<Nucleon>`).  Iterating a nucleus iterates this
list in order. -/
structure Nucleus (K : Type) where
  kind : NucleusKind K
  nucleons : List (Nucleon K)
deriving DecidableEq

/-- `Nucleus::set_nucleon_position`: overwrites a nucleon's position
(perfect-forwards to `Nucleon::set_position`; the base class is the only
friend of `Nucleon`, so this is the only write path). -/
def set_nucleon_position (_nucleon : Nucleon K) (x y : K) : Nucleon K :=
  ⟨x, y⟩

/-- Modelled from the spec: `Proton::Proton()` constructs a nucleus with a
single nucleon (`A = 1`); positions before the first sampling call are
default values callers must not rely on. -/
def mkProton : Nucleus K := ⟨.proton, List.replicate 1 ⟨0, 0⟩⟩

/-- Modelled from the spec: `WoodsSaxonNucleus::WoodsSaxonNucleus(A, R, a)`
constructs a nucleus with `A` nucleons and builds the piecewise-linear
table once, from the radial density `f R a` over `[0, R + 10a]` with
resolution `n` (the density is a construction-time parameter, mirroring
the lambda the C++ constructor passes to the distribution). -/
def mkWoodsSaxon (f : K → K → K → K) (n : ℕ) (A : ℕ) (R a : K) : Nucleus K :=
  ⟨.woodsSaxon R a (plTotal (f R a) (breakpoints (wsRMax R a) n))
      (wsTable (f R a) (wsRMax R a) n),
   List.replicate A ⟨0, 0⟩⟩

/-- `radius()`: `Proton::radius` is always zero; `WoodsSaxonNucleus::radius`
returns the truncated bound computed from the stored parameters. -/
def Nucleus.radius (nu : Nucleus K) : K :=
  match nu.kind with
  | .proton => 0
  | .woodsSaxon R a _ _ => wsRadius R a

/-- One Woods-Saxon nucleon write: draw a radius through the inverse-CDF
table from variate `u₁`, form the transverse direction components from the
angular variates `u₂, u₃` (the maps `tx, ty` stand for
`sinθ·cosφ` and `sinθ·sinφ` as functions of the two angular draws),
shift x by `offset`, and overwrite the slot via `set_nucleon_position`. -/
def wsPoint (total : K) (tbl : List (K × K)) (tx ty : K → K → K)
    (offset u₁ u₂ u₃ : K) (old : Nucleon K) : Nucleon K :=
  let r := pl_inverse tbl (u₁ * total)
  set_nucleon_position old (r * tx u₂ u₃ + offset) (r * ty u₂ u₃)

/-- `sample_nucleons(offset)`.  Modelled from the spec: the `Proton`
override deterministically places its nucleon at `(offset, 0)` consuming
no randomness; the `WoodsSaxonNucleus` override overwrites every slot in
iteration order, slot `i` consuming the draw block `3i, 3i+1, 3i+2` of the
shared engine, and advances the engine by `3·A` draws. -/
def Nucleus.sample_nucleons (tx ty : K → K → K) (nu : Nucleus K)
    (offset : K) (e : Engine K) : Nucleus K × Engine K :=
  match nu.kind with
  | .proton =>
      (⟨nu.kind, nu.nucleons.map (fun m => set_nucleon_position m offset 0)⟩, e)
  | .woodsSaxon _R _a total tbl =>
      (⟨nu.kind, nu.nucleons.mapIdx (fun i m =>
          wsPoint total tbl tx ty offset (e.stream (e.pos + 3 * i))
            (e.stream (e.pos + 3 * i + 1)) (e.stream (e.pos + 3 * i + 2)) m)⟩,
       ⟨e.stream, e.pos + 3 * nu.nucleons.length⟩)

/-- The built-in species table's keys.  Modelled from the spec: a fixed
table keyed by "standard nuclear symbol strings, e.g. `p`, `Pb`". -/
def speciesNames : List String := ["p", "Pb"]

/-- `Nucleus::create(species)`.  Modelled from the spec: dispatches the
species token to the matching variant with parameters preset from the
built-in table (`Pb`: A = 208 with the reference Woods-Saxon `R`, `a`);
an unrecognized token fails with the "unknown species" error, the only
error condition in the subsystem. -/
def create (f : K → K → K → K) (n : ℕ) (species : String) :
    Except String (Nucleus K) :=
  if species = "p" then .ok mkProton
  else if species = "Pb" then .ok (mkWoodsSaxon f n 208 (662 / 100) (546 / 1000))
  else .error ("unknown species: " ++ species)

/-- A sequence of `sample_nucleons` calls threaded through nucleus and
engine state. -/
def runOffsets (tx ty : K → K → K) (st : Nucleus K × Engine K) :
    List K → Nucleus K × Engine K
  | [] => st
  | off :: rest => runOffsets tx ty (st.1.sample_nucleons tx ty off st.2) rest

/-- The trace of a sequence of `sample_nucleons` calls: the nucleon list
read back (through iteration) after each call. -/
def runTrace (tx ty : K → K → K) (st : Nucleus K × Engine K) :
    List K → List (List (Nucleon K))
  | [] => []
  | off :: rest =>
      let st2 := st.1.sample_nucleons tx ty off st.2
      st2.1.nucleons :: runTrace tx ty st2 rest

/-- A whole run: create a nucleus by species token, then perform a sequence
of sampling calls, reporting the trace; the factory error propagates. -/
def runFromSpecies (f : K → K → K → K) (n : ℕ) (tx ty : K → K → K)
    (species : String) (offsets : List K) (e : Engine K) :
    Except String (List (List (Nucleon K))) :=
  (create f n species).map (fun nu => runTrace tx ty (nu, e) offsets)

/-- The public read interface (`begin`/`end`/`cbegin`/`cend` iteration):
yields the current nucleon sequence and leaves the nucleus as is (const
access; `Nucleon`'s position setter is private to the base class). -/
def iterateNucleons (nu : Nucleus K) : List (Nucleon K) × Nucleus K :=
  (nu.nucleons, nu)

/-! ## Basic structural lemmas -/

lemma mapIdx_getElem_opt {α β : Type} (l : List α) (f : ℕ → α → β) (i : ℕ) :
    (l.mapIdx f)[i]? = (l[i]?).map (f i) := by
  rcases Nat.lt_or_ge i l.length with h | h
  · rw [List.getElem?_eq_getElem (by simpa [List.length_mapIdx] using h),
      List.getElem?_eq_getElem h]
    simp [List.getElem_mapIdx]
  · rw [List.getElem?_eq_none (by simpa [List.length_mapIdx] using h),
      List.getElem?_eq_none h]
    rfl

lemma sample_kind (tx ty : K → K → K) (nu : Nucleus K) (off : K) (e : Engine K) :
    (nu.sample_nucleons tx ty off e).1.kind = nu.kind := by
  rcases nu with ⟨k, ns⟩
  cases k <;> rfl

lemma sample_length (tx ty : K → K → K) (nu : Nucleus K) (off : K) (e : Engine K) :
    (nu.sample_nucleons tx ty off e).1.nucleons.length = nu.nucleons.length := by
  rcases nu with ⟨k, ns⟩
  cases k <;> simp [Nucleus.sample_nucleons, List.length_mapIdx]

lemma runOffsets_kind (tx ty : K → K → K) (offsets : List K) :
    ∀ st : Nucleus K × Engine K,
      (runOffsets tx ty st offsets).1.kind = st.1.kind := by
  induction offsets with
  | nil => intro st; rfl
  | cons off rest ih =>
      intro st
      rw [runOffsets, ih]
      exact sample_kind tx ty st.1 off st.2

/-! ## Claims about the ensemble and sampling structure -/

/-- C1: every nucleus holds exactly A nucleons at all times: A right after
construction (1 for a proton), and `sample_nucleons` never changes the
length of the sequence; moreover the sequence is rewritten in place, slot
`i` of the result being the write of draw block `i`, so iteration order is
stable and matches the internal sampling order. -/
theorem nucleon_count_invariant (f : K → K → K → K) (nApprox A : ℕ) (R a : K)
    (nu : Nucleus K) (tx ty : K → K → K) (off : K) (e : Engine K)
    (tot : K) (tbl : List (K × K)) (ns : List (Nucleon K)) (i : ℕ) :
    (mkWoodsSaxon f nApprox A R a).nucleons.length = A
    ∧ (mkProton : Nucleus K).nucleons.length = 1
    ∧ ((nu.sample_nucleons tx ty off e).1).nucleons.length = nu.nucleons.length
    ∧ ((Nucleus.sample_nucleons tx ty ⟨.woodsSaxon R a tot tbl, ns⟩ off e).1).nucleons[i]?
        = (ns[i]?).map (wsPoint tot tbl tx ty off (e.stream (e.pos + 3 * i))
            (e.stream (e.pos + 3 * i + 1)) (e.stream (e.pos + 3 * i + 2))) := by
  refine ⟨by simp [mkWoodsSaxon], by simp [mkProton],
    sample_length tx ty nu off e, ?_⟩
  simp [Nucleus.sample_nucleons, mapIdx_getElem_opt]

/-- C2: for a Woods-Saxon nucleus, sampling with offset `d` on the same
engine state produces, slot by slot, the position sampled with offset `0`
with the x-coordinate shifted by exactly `d` and the y-coordinate
unchanged; both calls leave the engine in the same state (same draws). -/
theorem offset_linearity (R a tot : K) (tbl : List (K × K)) (ns : List (Nucleon K))
    (tx ty : K → K → K) (d : K) (e : Engine K) :
    (Nucleus.sample_nucleons tx ty ⟨.woodsSaxon R a tot tbl, ns⟩ d e).1.nucleons
      = ((Nucleus.sample_nucleons tx ty ⟨.woodsSaxon R a tot tbl, ns⟩ 0 e).1.nucleons).map
          (fun m => ⟨m.x + d, m.y⟩)
    ∧ (Nucleus.sample_nucleons tx ty ⟨.woodsSaxon R a tot tbl, ns⟩ d e).2
      = (Nucleus.sample_nucleons tx ty ⟨.woodsSaxon R a tot tbl, ns⟩ 0 e).2 := by
  refine ⟨?_, rfl⟩
  apply List.ext_getElem?
  intro i
  simp only [Nucleus.sample_nucleons, List.getElem?_map, mapIdx_getElem_opt]
  cases ns[i]? with
  | none => rfl
  | some m => simp [wsPoint, set_nucleon_position]

/-- C5: a proton's `sample_nucleons(offset)` deterministically places its
single nucleon at exactly `(offset, 0)` and consumes no randomness (the
engine is returned unchanged), for every offset. -/
theorem proton_sample (tx ty : K → K → K) (off : K) (e : Engine K) :
    ((mkProton : Nucleus K).sample_nucleons tx ty off e).1.nucleons = [⟨off, 0⟩]
    ∧ ((mkProton : Nucleus K).sample_nucleons tx ty off e).2 = e :=
  ⟨rfl, rfl⟩

/-- C6: a proton's `radius()` is exactly 0 regardless of the object's
history: after any sequence of `sample_nucleons` calls (including none),
it still returns 0. -/
theorem proton_radius_zero (tx ty : K → K → K) (offsets : List K) (e : Engine K) :
    (runOffsets tx ty ((mkProton : Nucleus K), e) offsets).1.radius = 0 := by
  have h : (runOffsets tx ty ((mkProton : Nucleus K), e) offsets).1.kind
      = NucleusKind.proton := by
    rw [runOffsets_kind]; rfl
  simp [Nucleus.radius, h]

/-- C9: the piecewise-linear table of a Woods-Saxon nucleus is built
exactly once, at construction (it is determined by the density, the domain
end and the resolution), and any sequence of `sample_nucleons` calls
leaves the stored distribution state (parameters, total area, table)
unchanged. -/
theorem ws_table_built_once (f : K → K → K → K) (n A : ℕ) (R a : K)
    (tx ty : K → K → K) (offsets : List K) (e : Engine K) :
    (mkWoodsSaxon f n A R a).kind
        = .woodsSaxon R a (plTotal (f R a) (breakpoints (wsRMax R a) n))
            (wsTable (f R a) (wsRMax R a) n)
    ∧ (runOffsets tx ty (mkWoodsSaxon f n A R a, e) offsets).1.kind
        = (mkWoodsSaxon f n A R a).kind :=
  ⟨rfl, runOffsets_kind tx ty offsets (mkWoodsSaxon f n A R a, e)⟩

lemma mem_mapIdx_ex {α β : Type} (f : ℕ → α → β) (l : List α) (m : β)
    (h : m ∈ l.mapIdx f) : ∃ i a, m = f i a := by
  rw [List.mapIdx_eq_ofFn] at h
  obtain ⟨i, hi⟩ := Set.mem_range.mp ((List.mem_ofFn _ _).mp h)
  exact ⟨i, l[i], hi.symm⟩

/-- C4: the factory fails with the "unknown species" error exactly on the
tokens outside the built-in species table, and on each table entry it
returns the correct concrete variant (a proton for "p", a Woods-Saxon
lead nucleus for "Pb"); there is no other outcome. -/
theorem create_species (f : K → K → K → K) (n : ℕ) (species : String) :
    (species ∉ speciesNames →
      create f n species = Except.error ("unknown species: " ++ species))
    ∧ create f n "p" = Except.ok (mkProton : Nucleus K)
    ∧ create f n "Pb" = Except.ok (mkWoodsSaxon f n 208 (662 / 100) (546 / 1000)) := by
  refine ⟨?_, rfl, rfl⟩
  intro h
  simp only [speciesNames, List.mem_cons, List.mem_singleton, not_or] at h
  simp [create, h.1, h.2]

/-- Witness for `create_species` at the unknown token "Xx". -/
theorem create_species_witness :
    ("Xx" ∉ speciesNames)
    ∧ create (fun _ _ r => (r : ℚ)) 1 "Xx" = Except.error "unknown species: Xx" :=
  ⟨by decide, (create_species (fun _ _ r => (r : ℚ)) 1 "Xx").1 (by decide)⟩

/-- C7: reproducibility: two runs that seed the shared stream identically
(pointwise equal streams, both starting unconsumed) and perform the same
sequence of `sample_nucleons` calls on freshly created nuclei produce
identical traces of nucleon positions. -/
theorem reproducibility (f : K → K → K → K) (n : ℕ) (tx ty : K → K → K)
    (species : String) (offsets : List K) (s₁ s₂ : ℕ → K)
    (h : ∀ k, s₁ k = s₂ k) :
    runFromSpecies f n tx ty species offsets ⟨s₁, 0⟩
      = runFromSpecies f n tx ty species offsets ⟨s₂, 0⟩ := by
  have hs : s₁ = s₂ := funext h
  rw [hs]

/-- Witness for `reproducibility` on concrete equal streams. -/
theorem reproducibility_witness :
    (∀ k : ℕ, (fun _ : ℕ => (0 : ℚ)) k = (fun _ : ℕ => (0 : ℚ)) k)
    ∧ runFromSpecies (fun _ _ r => (r : ℚ)) 1 (fun _ _ => 0) (fun _ _ => 0)
        "p" [1] ⟨fun _ => 0, 0⟩
      = runFromSpecies (fun _ _ r => (r : ℚ)) 1 (fun _ _ => 0) (fun _ _ => 0)
        "p" [1] ⟨fun _ => 0, 0⟩ :=
  ⟨fun _ => rfl,
    reproducibility (fun _ _ r => (r : ℚ)) 1 (fun _ _ => 0) (fun _ _ => 0)
      "p" [1] (fun _ => 0) (fun _ => 0) (fun _ => rfl)⟩

/-- C10: totality: once a nucleus has been created successfully, a run
performing any sequence of `sample_nucleons` calls (any finite offsets)
never fails — the unknown-species factory error is the subsystem's only
failure path. -/
theorem sampling_total (f : K → K → K → K) (n : ℕ) (tx ty : K → K → K)
    (species : String) (offsets : List K) (e : Engine K) (nu : Nucleus K)
    (h : create f n species = Except.ok nu) :
    runFromSpecies f n tx ty species offsets e
      = Except.ok (runTrace tx ty (nu, e) offsets) := by
  simp [runFromSpecies, h, Except.map]

/-- Witness for `sampling_total` on the proton species. -/
theorem sampling_total_witness :
    create (fun _ _ r => (r : ℚ)) 1 "p" = Except.ok (mkProton : Nucleus ℚ)
    ∧ runFromSpecies (fun _ _ r => (r : ℚ)) 1 (fun _ _ => 0) (fun _ _ => 0)
        "p" [1, 2] ⟨fun _ => 0, 0⟩
      = Except.ok (runTrace (fun _ _ => 0) (fun _ _ => 0)
          ((mkProton : Nucleus ℚ), ⟨fun _ => 0, 0⟩) [1, 2]) :=
  ⟨rfl, sampling_total (fun _ _ r => (r : ℚ)) 1 (fun _ _ => 0) (fun _ _ => 0)
    "p" [1, 2] ⟨fun _ => 0, 0⟩ mkProton rfl⟩

/-- C8: the public iteration interface is read-only: iterating yields the
current nucleon sequence and leaves the nucleus unchanged; and every
position value that ever appears in a sampled ensemble was written by the
owning nucleus through `set_nucleon_position` (the only write path). -/
theorem read_only_iteration (nu : Nucleus K) (tx ty : K → K → K) (off : K)
    (e : Engine K) (m : Nucleon K)
    (h : m ∈ ((nu.sample_nucleons tx ty off e).1).nucleons) :
    (iterateNucleons nu).2 = nu
    ∧ (iterateNucleons nu).1 = nu.nucleons
    ∧ ∃ old : Nucleon K, ∃ x y : K, m = set_nucleon_position old x y := by
  refine ⟨rfl, rfl, ?_⟩
  rcases nu with ⟨k, ns⟩
  cases k with
  | proton =>
      simp only [Nucleus.sample_nucleons, List.mem_map] at h
      obtain ⟨m0, _, heq⟩ := h
      exact ⟨m0, off, 0, heq.symm⟩
  | woodsSaxon R a tot tbl =>
      simp only [Nucleus.sample_nucleons] at h
      obtain ⟨i, old, hm⟩ := mem_mapIdx_ex _ _ _ h
      refine ⟨old,
        pl_inverse tbl (e.stream (e.pos + 3 * i) * tot)
          * tx (e.stream (e.pos + 3 * i + 1)) (e.stream (e.pos + 3 * i + 2)) + off,
        pl_inverse tbl (e.stream (e.pos + 3 * i) * tot)
          * ty (e.stream (e.pos + 3 * i + 1)) (e.stream (e.pos + 3 * i + 2)), ?_⟩
      rw [hm]
      rfl

/-- Witness for `read_only_iteration` on a freshly sampled proton. -/
theorem read_only_iteration_witness :
    ((⟨5, 0⟩ : Nucleon ℚ) ∈
      (((mkProton : Nucleus ℚ).sample_nucleons (fun _ _ => 0) (fun _ _ => 0) 5
        ⟨fun _ => 0, 0⟩).1).nucleons)
    ∧ ((iterateNucleons (mkProton : Nucleus ℚ)).2 = mkProton
      ∧ (iterateNucleons (mkProton : Nucleus ℚ)).1 = (mkProton : Nucleus ℚ).nucleons
      ∧ ∃ old : Nucleon ℚ, ∃ x y : ℚ, (⟨5, 0⟩ : Nucleon ℚ) = set_nucleon_position old x y) :=
  ⟨by decide,
    read_only_iteration (mkProton : Nucleus ℚ) (fun _ _ => 0) (fun _ _ => 0) 5
      ⟨fun _ => 0, 0⟩ ⟨5, 0⟩ (by decide)⟩

/-! ## Analysis of the piecewise-linear inverse CDF

These lemmas establish that, for a strictly increasing partition and a
density that is nonnegative everywhere and positive on all partition
points after the first, the tabulated inverse CDF maps the total area
back to the upper end of the partition: the sampler's radial range
genuinely reaches the end of the tabulated domain. -/

lemma trapAreas_pos (f : K → K) (h0 : ∀ z, 0 ≤ f z) :
    ∀ pts : List K, List.Chain' (· < ·) pts →
      (∀ z ∈ pts.tail, 0 < f z) →
      ∀ A ∈ trapAreas f pts, 0 < A := by
  intro pts
  induction pts with
  | nil => intro _ _ A hA; simp [trapAreas] at hA
  | cons x xs ih =>
      cases xs with
      | nil => intro _ _ A hA; simp [trapAreas] at hA
      | cons y rest =>
          intro hch h1 A hA
          rw [trapAreas] at hA
          rcases List.mem_cons.mp hA with rfl | hA'
          · have hxy : x < y := (List.chain'_cons.mp hch).1
            have hfy : 0 < f y := h1 y (List.mem_cons_self y rest)
            have hfx : 0 ≤ f x := h0 x
            have : 0 < (f x + f y) * (y - x) := by
              apply mul_pos (by linarith) (by linarith)
            linarith
          · refine ih (List.chain'_cons.mp hch).2 ?_ A hA'
            intro z hz
            exact h1 z (List.mem_cons_of_mem y hz)

lemma plTotal_cons (f : K → K) (x y : K) (rest : List K) :
    plTotal f (x :: y :: rest)
      = (f x + f y) * (y - x) / 2 + plTotal f (y :: rest) := by
  rw [plTotal, plTotal, trapAreas, List.sum_cons]

lemma plTotal_pos (f : K → K) (h0 : ∀ z, 0 ≤ f z) (x y : K) (rest : List K)
    (hch : List.Chain' (· < ·) (x :: y :: rest))
    (h1 : ∀ z ∈ y :: rest, 0 < f z) :
    0 < plTotal f (x :: y :: rest) := by
  rw [plTotal]
  refine List.sum_pos _ (trapAreas_pos f h0 _ hch h1) ?_
  rw [trapAreas]
  exact List.cons_ne_nil _ _

/-- The tabulated inverse CDF evaluated at the total area returns the last
partition point: the sampler's radial support reaches the upper end of
the tabulated domain. -/
lemma pl_inverse_total (f : K → K) (h0 : ∀ z, 0 ≤ f z) :
    ∀ (rest : List K) (x y c : K),
      List.Chain' (· < ·) (x :: y :: rest) →
      (∀ z ∈ y :: rest, 0 < f z) →
      pl_inverse (plTable f (x :: y :: rest) c) (c + plTotal f (x :: y :: rest))
        = (y :: rest).getLast (List.cons_ne_nil y rest) := by
  intro rest
  induction rest with
  | nil =>
      intro x y c hch h1
      have hxy : x < y := (List.chain'_cons.mp hch).1
      have hA : 0 < (f x + f y) * (y - x) / 2 := by
        have hfy : 0 < f y := h1 y (List.mem_cons_self y [])
        have hfx : 0 ≤ f x := h0 x
        have : 0 < (f x + f y) * (y - x) := by
          apply mul_pos (by linarith) (by linarith)
        linarith
      have hS : plTotal f [x, y] = (f x + f y) * (y - x) / 2 := by
        simp [plTotal, trapAreas]
      rw [hS]
      simp only [plTable, pl_inverse]
      rw [if_pos le_rfl, List.getLast_singleton]
      have hsub : c + (f x + f y) * (y - x) / 2 - c = (f x + f y) * (y - x) / 2 := by
        ring
      rw [hsub, div_self (ne_of_gt hA), one_mul]
      ring
  | cons z rs ih =>
      intro x y c hch h1
      have hch' : List.Chain' (· < ·) (y :: z :: rs) := (List.chain'_cons.mp hch).2
      have h1' : ∀ w ∈ z :: rs, 0 < f w := fun w hw => h1 w (List.mem_cons_of_mem y hw)
      have htotpos : 0 < plTotal f (y :: z :: rs) := plTotal_pos f h0 y z rs hch' h1'
      have hsplit : plTotal f (x :: y :: z :: rs)
          = (f x + f y) * (y - x) / 2 + plTotal f (y :: z :: rs) :=
        plTotal_cons f x y (z :: rs)
      -- unfold the table twice so the interpolation step is exposed
      rw [plTable, plTable]
      simp only [pl_inverse]
      rw [if_neg (by rw [hsplit]; push_neg; linarith)]
      rw [← plTable]
      have := ih y z (c + (f x + f y) * (y - x) / 2) hch' h1'
      rw [List.getLast_cons_cons]
      rw [hsplit]
      rw [show c + ((f x + f y) * (y - x) / 2 + plTotal f (y :: z :: rs))
          = c + (f x + f y) * (y - x) / 2 + plTotal f (y :: z :: rs) from by ring]
      exact this

lemma breakpoints_length (rmax : K) (n : ℕ) :
    (breakpoints rmax n).length = n + 1 := by
  simp [breakpoints]

lemma breakpoints_chain (rmax : K) (n : ℕ) (h : 0 < rmax) (hn : 0 < n) :
    List.Chain' (· < ·) (breakpoints rmax n) := by
  have hnK : (0 : K) < (n : K) := by exact_mod_cast hn
  rw [breakpoints, List.chain'_map]
  have : n + 1 = Nat.succ n := rfl
  rw [this, List.chain'_range_succ]
  intro m _
  rw [div_lt_div_iff_of_pos_right hnK]
  have hm : (m : K) < (m.succ : K) := by exact_mod_cast Nat.lt_succ_self m
  exact mul_lt_mul_of_pos_left hm h

lemma breakpoints_tail_pos (rmax : K) (n : ℕ) (h : 0 < rmax) (hn : 0 < n) :
    ∀ z ∈ (breakpoints rmax n).tail, 0 < z := by
  have hnK : (0 : K) < (n : K) := by exact_mod_cast hn
  intro z hz
  rw [breakpoints, List.range_succ_eq_map, List.map_cons, List.tail_cons,
    List.map_map] at hz
  obtain ⟨k, _, hk⟩ := List.mem_map.mp hz
  rw [← hk]
  simp only [Function.comp]
  apply div_pos (mul_pos h ?_) hnK
  exact_mod_cast Nat.succ_pos k

lemma breakpoints_getLast_opt (rmax : K) (n : ℕ) (hn : n ≠ 0) :
    (breakpoints rmax n).getLast? = some rmax := by
  rw [breakpoints, List.range_succ, List.map_append, List.map_singleton]
  rw [List.getLast?_concat]
  congr 1
  rw [mul_div_assoc, div_self (by exact_mod_cast hn), mul_one]

/-! ## The Woods-Saxon density and the truncated radius -/

/-- The Woods-Saxon nuclear density profile
`ρ(r) = 1 / (1 + exp((r − R)/a))` (glossary of the spec; parameters from
the reference parameterization cited in `nucleus.h`). -/
noncomputable def wsDensity (R a r : ℝ) : ℝ :=
  1 / (1 + Real.exp ((r - R) / a))

/-- The radial-distance density tabulated by the sampler: the spherically
symmetric profile weighted by the spherical measure, `r² · ρ(r)` (the
integrand the C++ constructor hands to
`std::piecewise_linear_distribution`). -/
noncomputable def wsWeight (R a : ℝ) (r : ℝ) : ℝ :=
  r ^ 2 * wsDensity R a r

lemma wsDensity_pos (R a r : ℝ) : 0 < wsDensity R a r := by
  rw [wsDensity]
  positivity

lemma wsWeight_nonneg (R a r : ℝ) : 0 ≤ wsWeight R a r :=
  mul_nonneg (sq_nonneg r) (le_of_lt (wsDensity_pos R a r))

lemma wsWeight_pos (R a r : ℝ) (hr : 0 < r) : 0 < wsWeight R a r :=
  mul_pos (by positivity) (wsDensity_pos R a r)

/-- C3: for positive Woods-Saxon parameters, `radius()` is a deliberately
truncated bound: the true density is still strictly positive at every
radius beyond it (the exact distribution has unbounded support), the
tabulated radial domain extends strictly beyond it, and the sampler's
inverse-CDF table actually produces a radial distance (at the top of the
uniform range) equal to the domain end, hence strictly exceeding the
reported `radius()`. -/
theorem ws_radius_truncated (R a : ℝ) (hR : 0 < R) (ha : 0 < a)
    (n : ℕ) (hn : 1 ≤ n) :
    (∀ r : ℝ, wsRadius R a < r → 0 < wsDensity R a r)
    ∧ wsRadius R a < wsRMax R a
    ∧ wsInv (wsWeight R a) (wsRMax R a) n 1 = wsRMax R a
    ∧ wsRadius R a < wsInv (wsWeight R a) (wsRMax R a) n 1 := by
  have hlt : wsRadius R a < wsRMax R a := by
    rw [wsRadius, wsRMax]
    linarith
  have hrmax : 0 < wsRMax R a := by rw [wsRMax]; linarith
  have hnz : 0 < n := hn
  have hmain : wsInv (wsWeight R a) (wsRMax R a) n 1 = wsRMax R a := by
    have hch := breakpoints_chain (wsRMax R a) n hrmax hnz
    have htail := breakpoints_tail_pos (wsRMax R a) n hrmax hnz
    have hlast := breakpoints_getLast_opt (wsRMax R a) n (Nat.pos_iff_ne_zero.mp hnz)
    have hlen := breakpoints_length (wsRMax R a) n
    rcases hb : breakpoints (wsRMax R a) n with _ | ⟨x, _ | ⟨y, rest⟩⟩
    · rw [hb] at hlen; simp at hlen
    · rw [hb] at hlen
      simp only [List.length_singleton] at hlen
      omega
    · rw [hb] at hch htail hlast
      have h1 : ∀ z ∈ y :: rest, 0 < wsWeight R a z := by
        intro z hz
        exact wsWeight_pos R a z (htail z (by simpa using hz))
      rw [wsInv, wsTable, hb, one_mul]
      have := pl_inverse_total (wsWeight R a) (wsWeight_nonneg R a)
        rest x y 0 hch h1
      rw [zero_add] at this
      rw [this]
      rw [List.getLast?_eq_getLast_of_ne_nil (List.cons_ne_nil x (y :: rest))] at hlast
      have h2 := Option.some.inj hlast
      rw [List.getLast_cons_cons] at h2
      exact h2
  exact ⟨fun r hr => wsDensity_pos R a r, hlt, hmain, by rw [hmain]; exact hlt⟩

/-- Witness for `ws_radius_truncated` at `R = a = 1`, one table interval. -/
theorem ws_radius_truncated_witness :
    ((0 : ℝ) < 1 ∧ (1 : ℕ) ≤ 1)
    ∧ wsRadius (1 : ℝ) 1 < wsInv (wsWeight 1 1) (wsRMax 1 1) 1 1 :=
  ⟨⟨by norm_num, le_refl 1⟩,
    (ws_radius_truncated 1 1 (by norm_num) (by norm_num) 1 (le_refl 1)).2.2.2⟩

end Trento
